import Mathlib

/-!
Shallow embedding of the Bloom filter implemented in `src/bloom.rs` of the
`Filters` repository, together with proofs and refutations of the frozen
specification claims.

Modelling conventions:
* `u16`, `u64`, `usize` values are modelled as `ℕ`; the hash output is a
  `u64`, hence the reduction modulo `2 ^ 64` at the use site.
* Rust `f64` arithmetic (`log2`, `ceil`, the saturating `as u16` cast and the
  truncating `as usize` cast in `get_hash_count` / `get_bit_count`) is
  modelled over `ℝ`; for every concrete input appearing below the exact real
  value is far enough from the rounding boundaries that `f64` rounding cannot
  change the integer result.
* each stored `RandomState` determines, through `build_hasher` and
  `DefaultHasher::finish`, a fixed pure function from values to `u64` hashes;
  a state is therefore modelled as a function `α → ℕ`.
* Rust `%` on integers aborts the program when the divisor is `0`; fallible
  computations consequently return `Option`, with `none` for the abort.
-/

namespace Filters

/-- Checked remainder: Rust integer `%` aborts on a zero divisor, which is
modelled by `none`. -/
def rustMod (a b : ℕ) : Option ℕ :=
  if b = 0 then none else some (a % b)

/-- State of `BloomFilter` (src/bloom.rs, lines 6-11): hash count `n_hashes`
(`u16`), bit count `n_bits` (`usize`), the `BitSet` as the set of set bit
indices, and the stored `RandomState`s as hash functions. -/
@[ext]
structure BloomFilter (α : Type) where
  n_hashes : ℕ
  n_bits : ℕ
  bit_set : Finset ℕ
  states : List (α → ℕ)

/-- BloomFilter::get_bits (src/bloom.rs, lines 56-61): the iterator
`states.iter().map(hash).map(|h| (h as usize) % n_bits)`, consumed strictly
by `put` and `contains`; an element whose remainder divides by zero aborts
the consumer, modelled by `none`.  Hash outputs are `u64`, hence `% 2 ^ 64`. -/
def get_bits {α : Type} (states : List (α → ℕ)) (value : α) (n_bits : ℕ) :
    Option (List ℕ) :=
  match states with
  | [] => some []
  | st :: rest =>
      (rustMod (st value % 2 ^ 64) n_bits).bind (fun b =>
        (get_bits rest value n_bits).map (fun bs => b :: bs))

/-- The `for_each(|bit| bit_set.insert(bit))` loop in `put`: insert every
produced bit index into the bit set, in order. -/
def insertAll (s : Finset ℕ) (bits : List ℕ) : Finset ℕ :=
  bits.foldl (fun t b => insert b t) s

/-- BloomFilter::put (src/bloom.rs, lines 23-28): set every bit index produced
by `get_bits`; `none` when the index computation aborts. -/
def put {α : Type} (f : BloomFilter α) (value : α) : Option (BloomFilter α) :=
  (get_bits f.states value f.n_bits).map (fun bits =>
    { f with bit_set := insertAll f.bit_set bits })

/-- BloomFilter::contains (src/bloom.rs, lines 30-33): do all bit indices
produced by `get_bits` lie in the bit set; `none` when the index computation
aborts. -/
def contains {α : Type} (f : BloomFilter α) (value : α) : Option Bool :=
  (get_bits f.states value f.n_bits).map (fun bits =>
    bits.all (fun b => decide (b ∈ f.bit_set)))

/-- A sequence of `put` calls, each required to complete. -/
def putAll {α : Type} (f : BloomFilter α) : List α → Option (BloomFilter α)
  | [] => some f
  | v :: vs => (put f v).bind (fun f₁ => putAll f₁ vs)

/-- A fixed hash function used for concrete evaluations. -/
def idHash : ℕ → ℕ := fun n => n

lemma rustMod_of_ne_zero {b : ℕ} (a : ℕ) (hb : b ≠ 0) :
    rustMod a b = some (a % b) := by
  simp [rustMod, hb]

lemma get_bits_of_ne_zero {α : Type} (states : List (α → ℕ)) (value : α)
    {n_bits : ℕ} (h : n_bits ≠ 0) :
    get_bits states value n_bits
      = some (states.map (fun st => st value % 2 ^ 64 % n_bits)) := by
  induction states with
  | nil => rfl
  | cons st rest ih => simp [get_bits, rustMod_of_ne_zero _ h, ih]

lemma insertAll_cons (s : Finset ℕ) (b : ℕ) (bits : List ℕ) :
    insertAll s (b :: bits) = insertAll (insert b s) bits := rfl

lemma subset_insertAll (s : Finset ℕ) (bits : List ℕ) : s ⊆ insertAll s bits := by
  induction bits generalizing s with
  | nil => exact fun x hx => hx
  | cons b bits ih =>
      exact fun x hx => ih (insert b s) (Finset.mem_insert_of_mem hx)

lemma mem_insertAll_of_mem {s : Finset ℕ} {bits : List ℕ} {b : ℕ}
    (h : b ∈ bits) : b ∈ insertAll s bits := by
  induction bits generalizing s with
  | nil => cases h
  | cons c bits ih =>
      rcases List.mem_cons.mp h with h1 | h2
      · subst h1
        exact subset_insertAll (insert b s) bits (Finset.mem_insert_self b s)
      · exact ih h2

lemma insertAll_eq_self {s : Finset ℕ} {bits : List ℕ}
    (h : ∀ b ∈ bits, b ∈ s) : insertAll s bits = s := by
  induction bits with
  | nil => rfl
  | cons c bits ih =>
      rw [insertAll_cons, Finset.insert_eq_self.mpr (h c (List.mem_cons_self c bits))]
      exact ih (fun b hb => h b (List.mem_cons_of_mem c hb))

lemma put_eq_some {α : Type} {f f₁ : BloomFilter α} {v : α} :
    put f v = some f₁ ↔
      ∃ bits, get_bits f.states v f.n_bits = some bits ∧
        { f with bit_set := insertAll f.bit_set bits } = f₁ := by
  simp [put, Option.map_eq_some']

lemma putAll_fields {α : Type} {f f₁ : BloomFilter α} {vs : List α}
    (h : putAll f vs = some f₁) :
    f₁.n_hashes = f.n_hashes ∧ f₁.n_bits = f.n_bits ∧ f₁.states = f.states ∧
      f.bit_set ⊆ f₁.bit_set := by
  induction vs generalizing f with
  | nil =>
      cases Option.some.inj h
      exact ⟨rfl, rfl, rfl, fun x hx => hx⟩
  | cons v vs ih =>
      rcases Option.bind_eq_some.mp h with ⟨g, hg, hrest⟩
      rcases put_eq_some.mp hg with ⟨bits, hbits, rfl⟩
      obtain ⟨h1, h2, h3, h4⟩ := ih hrest
      exact ⟨h1, h2, h3,
        fun x hx => h4 (subset_insertAll f.bit_set bits hx)⟩

lemma contains_eq_some_true {α : Type} {f : BloomFilter α} {v : α}
    {bits : List ℕ} (hb : get_bits f.states v f.n_bits = some bits)
    (h : ∀ b ∈ bits, b ∈ f.bit_set) : contains f v = some true := by
  simp only [contains, hb, Option.map_some', Option.some.injEq]
  rw [List.all_eq_true]
  intro b hbmem
  exact decide_eq_true (h b hbmem)

/-- Claim C1: no false negatives.  If `f.put(v)` completed, every subsequent
`contains(v)` query returns `true`, regardless of the `put` calls made in
between. -/
theorem no_false_negatives {α : Type} (f f₁ f₂ : BloomFilter α) (v : α)
    (vs : List α) (h1 : put f v = some f₁) (h2 : putAll f₁ vs = some f₂) :
    contains f₂ v = some true := by
  rcases put_eq_some.mp h1 with ⟨bits, hbits, rfl⟩
  obtain ⟨hn, hb, hs, hsub⟩ := putAll_fields h2
  have hbits₂ : get_bits f₂.states v f₂.n_bits = some bits := by
    rw [hs, hb]; exact hbits
  refine contains_eq_some_true hbits₂ (fun b hbmem => ?_)
  exact hsub (mem_insertAll_of_mem hbmem)

/-- Witness for C1: concrete filter, insert 3 then 4, then query 3. -/
theorem no_false_negatives_witness :
    contains (⟨1, 5, insertAll (insertAll ∅ [3]) [4], [idHash]⟩ : BloomFilter ℕ)
      3 = some true :=
  no_false_negatives ⟨1, 5, ∅, [idHash]⟩ ⟨1, 5, insertAll ∅ [3], [idHash]⟩
    ⟨1, 5, insertAll (insertAll ∅ [3]) [4], [idHash]⟩ 3 [4] rfl rfl

/-- Claim C6: idempotence of insertion.  Two consecutive completed `put(v)`
calls leave the filter in the same state as one. -/
theorem put_idempotent {α : Type} (f f₁ f₂ : BloomFilter α) (v : α)
    (h1 : put f v = some f₁) (h2 : put f₁ v = some f₂) : f₂ = f₁ := by
  rcases put_eq_some.mp h1 with ⟨bits, hbits, rfl⟩
  rcases put_eq_some.mp h2 with ⟨bits', hbits', rfl⟩
  have hb2 : get_bits f.states v f.n_bits = some bits' := hbits'
  rw [hbits] at hb2
  cases Option.some.inj hb2
  exact BloomFilter.ext rfl rfl
    (insertAll_eq_self (fun b hbmem => mem_insertAll_of_mem hbmem)) rfl

/-- Witness for C6: inserting 3 twice into a concrete filter equals inserting
it once. -/
theorem put_idempotent_witness :
    (⟨1, 5, insertAll (insertAll ∅ [3]) [3], [idHash]⟩ : BloomFilter ℕ)
      = ⟨1, 5, insertAll ∅ [3], [idHash]⟩ :=
  put_idempotent ⟨1, 5, ∅, [idHash]⟩ ⟨1, 5, insertAll ∅ [3], [idHash]⟩
    ⟨1, 5, insertAll (insertAll ∅ [3]) [3], [idHash]⟩ 3 rfl rfl

/-- Claim C7: determinism of indexing.  The sequence of bit indices that the
shared routine `get_bits` computes for a fixed value is unchanged by any
sequence of completed `put` calls on the filter, so `put` and `contains`
agree on the indices throughout the filter's lifetime. -/
theorem deterministic_indexing {α : Type} (f f₁ : BloomFilter α)
    (vs : List α) (v : α) (h : putAll f vs = some f₁) :
    get_bits f₁.states v f₁.n_bits = get_bits f.states v f.n_bits := by
  obtain ⟨-, hb, hs, -⟩ := putAll_fields h
  rw [hs, hb]

/-- Witness for C7: the indices of value 3 are unchanged by inserting 4. -/
theorem deterministic_indexing_witness :
    get_bits (⟨1, 5, insertAll ∅ [4], [idHash]⟩ : BloomFilter ℕ).states 3
        (⟨1, 5, insertAll ∅ [4], [idHash]⟩ : BloomFilter ℕ).n_bits
      = get_bits (⟨1, 5, ∅, [idHash]⟩ : BloomFilter ℕ).states 3
        (⟨1, 5, ∅, [idHash]⟩ : BloomFilter ℕ).n_bits :=
  deterministic_indexing ⟨1, 5, ∅, [idHash]⟩ ⟨1, 5, insertAll ∅ [4], [idHash]⟩
    [4] 3 rfl

/-- Claim C8: monotone bit state.  Completed operations never clear a set
bit: the bit set only grows (`contains` takes the filter immutably, and each
completed `put` only inserts). -/
theorem monotone_bit_set {α : Type} (f f₁ : BloomFilter α) (vs : List α)
    (h : putAll f vs = some f₁) : f.bit_set ⊆ f₁.bit_set :=
  (putAll_fields h).2.2.2

/-- Witness for C8: the bit set before inserting 3 is contained in the bit
set afterwards. -/
theorem monotone_bit_set_witness :
    (⟨1, 5, ∅, [idHash]⟩ : BloomFilter ℕ).bit_set
      ⊆ (⟨1, 5, insertAll ∅ [3], [idHash]⟩ : BloomFilter ℕ).bit_set :=
  monotone_bit_set ⟨1, 5, ∅, [idHash]⟩ ⟨1, 5, insertAll ∅ [3], [idHash]⟩
    [3] rfl

/-- BloomFilter::get_hash_count (src/bloom.rs, lines 43-45):
`-false_positive_rate.log2().ceil() as u16`, the negation of the ceiling of
the base-2 logarithm, then the saturating Rust float-to-integer cast to
`u16` (negative values clamp to `0`, large ones to `65535`).  `f64`
arithmetic is modelled over `ℝ`. -/
noncomputable def get_hash_count (false_positive_rate : ℝ) : ℕ :=
  min (Int.toNat (-⌈Real.logb 2 false_positive_rate⌉)) 65535

/-- Modelled from the spec: the claimed derivation
`hash_count = ceil(-log2(false_positive_rate))`, stated for comparison with
the source's `get_hash_count`. -/
noncomputable def spec_hash_count (false_positive_rate : ℝ) : ℕ :=
  Int.toNat ⌈-Real.logb 2 false_positive_rate⌉

/-- BloomFilter::get_bit_count (src/bloom.rs, lines 47-49):
`(expected_item_count as f64 * 14.4 * n_hashes as f64) as usize`, the
truncation (floor) of a nonnegative product. -/
noncomputable def get_bit_count (n_hashes : ℕ) (expected_item_count : ℕ) : ℕ :=
  ⌊(expected_item_count : ℝ) * 14.4 * (n_hashes : ℝ)⌋₊

/-- BloomFilter::new (src/bloom.rs, lines 14-21).  The `n_hashes` fresh
`RandomState`s drawn by `RandomState::new` are taken from an ambient stream
`hashers` of hash functions, modelling that randomness. -/
noncomputable def new {α : Type} (hashers : ℕ → α → ℕ)
    (false_positive_rate : ℝ) (expected_item_count : ℕ) : BloomFilter α :=
  { n_hashes := get_hash_count false_positive_rate,
    n_bits := get_bit_count (get_hash_count false_positive_rate) expected_item_count,
    bit_set := ∅,
    states := (List.range (get_hash_count false_positive_rate)).map hashers }

lemma logb_tenth_lt : Real.logb 2 ((1:ℝ)/10) < -3 := by
  rw [Real.logb_lt_iff_lt_rpow (by norm_num) (by norm_num)]
  rw [show ((-3:ℝ)) = ((-3:ℤ):ℝ) by norm_num, Real.rpow_intCast]
  norm_num

lemma lt_logb_tenth : (-4:ℝ) < Real.logb 2 ((1:ℝ)/10) := by
  rw [Real.lt_logb_iff_rpow_lt (by norm_num) (by norm_num)]
  rw [show ((-4:ℝ)) = ((-4:ℤ):ℝ) by norm_num, Real.rpow_intCast]
  norm_num

lemma ceil_logb_tenth : ⌈Real.logb 2 ((1:ℝ)/10)⌉ = -3 := by
  rw [Int.ceil_eq_iff]
  constructor
  · push_cast
    linarith [lt_logb_tenth]
  · push_cast
    linarith [logb_tenth_lt]

lemma hash_count_tenth : get_hash_count ((1:ℝ)/10) = 3 := by
  rw [get_hash_count, ceil_logb_tenth]
  rfl

lemma spec_hash_count_tenth : spec_hash_count ((1:ℝ)/10) = 4 := by
  have h : ⌈-Real.logb 2 ((1:ℝ)/10)⌉ = 4 := by
    rw [Int.ceil_eq_iff]
    constructor
    · push_cast
      linarith [logb_tenth_lt]
    · push_cast
      linarith [lt_logb_tenth]
  rw [spec_hash_count, h]
  rfl

lemma ceil_logb_of_half_lt {fpr : ℝ} (h1 : 1/2 < fpr) (h2 : fpr < 1) :
    ⌈Real.logb 2 fpr⌉ = 0 := by
  have hpos : (0:ℝ) < fpr := by linarith
  have hle : Real.logb 2 fpr ≤ 0 :=
    Real.logb_nonpos (by norm_num) hpos.le h2.le
  have hgt : (-1:ℝ) < Real.logb 2 fpr := by
    rw [Real.lt_logb_iff_rpow_lt (by norm_num) hpos, Real.rpow_neg_one]
    rw [show ((2:ℝ)⁻¹) = 1/2 by norm_num]
    exact h1
  rw [Int.ceil_eq_iff]
  constructor
  · push_cast
    linarith
  · push_cast
    linarith

lemma hash_count_of_half_lt {fpr : ℝ} (h1 : 1/2 < fpr) (h2 : fpr < 1) :
    get_hash_count fpr = 0 := by
  rw [get_hash_count, ceil_logb_of_half_lt h1 h2]
  rfl

lemma hash_count_of_one_le {fpr : ℝ} (h : 1 ≤ fpr) : get_hash_count fpr = 0 := by
  have hc : (0:ℤ) ≤ ⌈Real.logb 2 fpr⌉ :=
    Int.ceil_nonneg (Real.logb_nonneg (by norm_num) h)
  have ht : Int.toNat (-⌈Real.logb 2 fpr⌉) = 0 := by omega
  rw [get_hash_count, ht]
  rfl

lemma one_le_hash_count {fpr : ℝ} (h0 : 0 < fpr) (hhalf : fpr ≤ 1/2) :
    1 ≤ get_hash_count fpr := by
  have hle : Real.logb 2 fpr ≤ -1 := by
    rw [Real.logb_le_iff_le_rpow (by norm_num) h0, Real.rpow_neg_one]
    rw [show ((2:ℝ)⁻¹) = 1/2 by norm_num]
    exact hhalf
  have hc : ⌈Real.logb 2 fpr⌉ ≤ -1 := by
    rw [Int.ceil_le]
    push_cast
    linarith
  have h1' : 1 ≤ Int.toNat (-⌈Real.logb 2 fpr⌉) := by omega
  exact le_min h1' (by norm_num)

lemma logb_half : Real.logb 2 ((1:ℝ)/2) = -1 := by
  rw [show ((1:ℝ)/2) = (2:ℝ)⁻¹ by norm_num, Real.logb_inv,
    Real.logb_self_eq_one (by norm_num)]

lemma bit_count_zero (count : ℕ) : get_bit_count 0 count = 0 := by
  rw [get_bit_count]
  simp

lemma bit_count_tenth : get_bit_count 3 100 = 4320 := by
  rw [get_bit_count]
  rw [show ((100:ℕ):ℝ) * 14.4 * ((3:ℕ):ℝ) = ((4320:ℕ):ℝ) by norm_num]
  exact Nat.floor_natCast 4320

lemma one_le_bit_count {n count : ℕ} (hn : 1 ≤ n) (hc : 1 ≤ count) :
    1 ≤ get_bit_count n count := by
  rw [get_bit_count]
  apply Nat.le_floor
  push_cast
  have h1 : (1:ℝ) ≤ (count:ℝ) := by exact_mod_cast hc
  have h2 : (1:ℝ) ≤ (n:ℝ) := by exact_mod_cast hn
  nlinarith

/-- Claim C2 (counterexample): at `false_positive_rate = 1/10` the code's
`get_hash_count` yields `3` while the specified formula `ceil(-log2(1/10))`
yields `4`; accordingly `bit_count` is `4320`, not `5760`, matching the
repository's own test. -/
theorem param_derivation_cex :
    get_hash_count ((1:ℝ)/10) = 3 ∧ spec_hash_count ((1:ℝ)/10) = 4 ∧
      get_bit_count (get_hash_count ((1:ℝ)/10)) 100 = 4320 :=
  ⟨hash_count_tenth, spec_hash_count_tenth, by
    rw [hash_count_tenth]
    exact bit_count_tenth⟩

/-- Claim C2 (amended): `new` computes
`hash_count = floor(-log2(false_positive_rate))` — the negation of the
ceiling of `log2`, clamped to `u16` — and
`bit_count = floor(expected_item_count * 14.4 * hash_count)`; in particular
`new(0.1, 100)` yields `hash_count = 3` and `bit_count = 4320`. -/
theorem param_derivation (fpr : ℝ) (h0 : 0 < fpr) (h1 : fpr < 1)
    (hsmall : ⌊-Real.logb 2 fpr⌋ ≤ 65535) :
    get_hash_count fpr = Int.toNat ⌊-Real.logb 2 fpr⌋ ∧
      get_hash_count ((1:ℝ)/10) = 3 ∧
      get_bit_count (get_hash_count ((1:ℝ)/10)) 100 = 4320 := by
  refine ⟨?_, hash_count_tenth, by
    rw [hash_count_tenth]
    exact bit_count_tenth⟩
  rw [get_hash_count, Int.floor_neg]
  rw [Int.floor_neg] at hsmall
  exact Nat.min_eq_left (by omega)

/-- Witness for the amended C2, at `false_positive_rate = 1/2`. -/
theorem param_derivation_witness :
    get_hash_count ((1:ℝ)/2) = Int.toNat ⌊-Real.logb 2 ((1:ℝ)/2)⌋ ∧
      get_hash_count ((1:ℝ)/10) = 3 ∧
      get_bit_count (get_hash_count ((1:ℝ)/10)) 100 = 4320 :=
  param_derivation ((1:ℝ)/2) (by norm_num) (by norm_num) (by
    rw [logb_half]
    rw [show (-(-1:ℝ)) = ((1:ℤ):ℝ) by norm_num, Int.floor_intCast]
    norm_num)

/-- Claim C3 (counterexample): at `false_positive_rate = 2`, outside `(0,1)`,
`new` does not fail: it returns a filter whose hash count is `0`. -/
theorem invalid_rate_cex :
    (new (fun _ _ => 0) (2:ℝ) 100 : BloomFilter ℕ).n_hashes = 0 :=
  hash_count_of_one_le (by norm_num)

/-- Claim C3 (amended): construction performs no validation and cannot fail;
for every rate `≥ 1` it silently returns a filter with hash count `0` and
bit count `0` instead of reporting an invalid argument. -/
theorem invalid_rate_no_failure {α : Type} (hashers : ℕ → α → ℕ) (fpr : ℝ)
    (count : ℕ) (h : 1 ≤ fpr) :
    (new hashers fpr count).n_hashes = 0 ∧ (new hashers fpr count).n_bits = 0 := by
  have h0 := hash_count_of_one_le h
  refine ⟨h0, ?_⟩
  show get_bit_count (get_hash_count fpr) count = 0
  rw [h0]
  exact bit_count_zero count

/-- Witness for the amended C3, at rate 4. -/
theorem invalid_rate_no_failure_witness :
    (new (fun _ _ => 0) (4:ℝ) 100 : BloomFilter ℕ).n_hashes = 0 ∧
      (new (fun _ _ => 0) (4:ℝ) 100 : BloomFilter ℕ).n_bits = 0 :=
  invalid_rate_no_failure (fun _ _ => 0) 4 100 (by norm_num)

/-- Claim C4 (counterexample): at `false_positive_rate = 3/4 ∈ (0,1)` the
constructed filter has hash count `0`, not `≥ 1`. -/
theorem invariants_cex :
    (new (fun _ _ => 0) ((3:ℝ)/4) 100 : BloomFilter ℕ).n_hashes = 0 :=
  hash_count_of_half_lt (by norm_num) (by norm_num)

/-- Claim C4 (amended): for `false_positive_rate ∈ (0, 1/2]` and
`expected_item_count ≥ 1` the constructed filter has `hash_count ≥ 1` and
`bit_count ≥ 1`, and completed `put` calls never change either field. -/
theorem invariants_amended {α : Type} (hashers : ℕ → α → ℕ) (fpr : ℝ)
    (count : ℕ) (vs : List α) (f f₁ : BloomFilter α)
    (h0 : 0 < fpr) (hhalf : fpr ≤ 1/2) (hc : 1 ≤ count)
    (hput : putAll f vs = some f₁) :
    1 ≤ (new hashers fpr count).n_hashes ∧ 1 ≤ (new hashers fpr count).n_bits ∧
      f₁.n_hashes = f.n_hashes ∧ f₁.n_bits = f.n_bits := by
  have hn := one_le_hash_count h0 hhalf
  obtain ⟨e1, e2, -, -⟩ := putAll_fields hput
  exact ⟨hn, one_le_bit_count hn hc, e1, e2⟩

/-- Witness for the amended C4. -/
theorem invariants_amended_witness :
    1 ≤ (new (fun _ _ => 0) ((1:ℝ)/2) 1 : BloomFilter ℕ).n_hashes ∧
      1 ≤ (new (fun _ _ => 0) ((1:ℝ)/2) 1 : BloomFilter ℕ).n_bits ∧
      (⟨1, 5, insertAll ∅ [3], [idHash]⟩ : BloomFilter ℕ).n_hashes
          = (⟨1, 5, ∅, [idHash]⟩ : BloomFilter ℕ).n_hashes ∧
      (⟨1, 5, insertAll ∅ [3], [idHash]⟩ : BloomFilter ℕ).n_bits
          = (⟨1, 5, ∅, [idHash]⟩ : BloomFilter ℕ).n_bits :=
  invariants_amended (fun _ _ => 0) ((1:ℝ)/2) 1 [3] ⟨1, 5, ∅, [idHash]⟩
    ⟨1, 5, insertAll ∅ [3], [idHash]⟩ (by norm_num) (by norm_num)
    (le_refl 1) (by rfl)

/-- A filter on which the index computation cannot abort: either there are no
hash states, or the bit count is nonzero. -/
def nonAborting {α : Type} (f : BloomFilter α) : Prop :=
  f.states = [] ∨ f.n_bits ≠ 0

lemma get_bits_isSome_of_nonAborting {α : Type} {f : BloomFilter α} (v : α)
    (h : nonAborting f) : (get_bits f.states v f.n_bits).isSome = true := by
  rcases h with h | h
  · rw [h]
    rfl
  · rw [get_bits_of_ne_zero f.states v h]
    rfl

lemma put_isSome_of_nonAborting {α : Type} {f : BloomFilter α} (v : α)
    (h : nonAborting f) : (put f v).isSome = true := by
  obtain ⟨bits, hb⟩ :=
    Option.isSome_iff_exists.mp (get_bits_isSome_of_nonAborting v h)
  rw [put, hb]
  rfl

lemma contains_isSome_of_nonAborting {α : Type} {f : BloomFilter α} (v : α)
    (h : nonAborting f) : (contains f v).isSome = true := by
  obtain ⟨bits, hb⟩ :=
    Option.isSome_iff_exists.mp (get_bits_isSome_of_nonAborting v h)
  rw [contains, hb]
  rfl

lemma putAll_isSome {α : Type} (vs : List α) {f : BloomFilter α}
    (h : nonAborting f) :
    ∃ f₁, putAll f vs = some f₁ ∧ nonAborting f₁ := by
  induction vs generalizing f with
  | nil => exact ⟨f, rfl, h⟩
  | cons v vs ih =>
      obtain ⟨bits, hb⟩ :=
        Option.isSome_iff_exists.mp (get_bits_isSome_of_nonAborting v h)
      have hput : put f v
          = some { f with bit_set := insertAll f.bit_set bits } := by
        rw [put, hb]
        rfl
      have hgood : nonAborting
          ({ f with bit_set := insertAll f.bit_set bits } : BloomFilter α) := h
      obtain ⟨f₁, hall, hgood₁⟩ := ih hgood
      refine ⟨f₁, ?_, hgood₁⟩
      show (put f v).bind (fun g => putAll g vs) = some f₁
      rw [hput]
      exact hall

lemma new_nonAborting {α : Type} (hashers : ℕ → α → ℕ) (fpr : ℝ) {count : ℕ}
    (hc : 1 ≤ count) : nonAborting (new hashers fpr count) := by
  rcases Nat.eq_zero_or_pos (get_hash_count fpr) with h | h
  · left
    show (List.range (get_hash_count fpr)).map hashers = []
    rw [h]
    rfl
  · right
    show get_bit_count (get_hash_count fpr) count ≠ 0
    exact Nat.one_le_iff_ne_zero.mp (one_le_bit_count h hc)

/-- Claim C5 (counterexample): with `false_positive_rate = 1/10` and
`expected_item_count = 0` the constructed filter has 3 hash states but a
zero bit count, and `put` aborts on the division by zero in
`hash mod bit_count`. -/
theorem totality_cex :
    put (new (fun _ _ => 0) ((1:ℝ)/10) 0 : BloomFilter ℕ) 0 = none := by
  have hs : (new (fun _ _ => 0) ((1:ℝ)/10) 0 : BloomFilter ℕ).states
      = (List.range 3).map (fun _ _ => 0) := by
    show (List.range (get_hash_count ((1:ℝ)/10))).map _ = _
    rw [hash_count_tenth]
  have hnb : (new (fun _ _ => 0) ((1:ℝ)/10) 0 : BloomFilter ℕ).n_bits = 0 := by
    show get_bit_count (get_hash_count ((1:ℝ)/10)) 0 = 0
    rw [hash_count_tenth, get_bit_count]
    simp
  rw [put, hs, hnb]
  rfl

/-- Claim C5 (amended): with `expected_item_count ≥ 1` (and any rate in
`(0,1)`) every sequence of `put` calls and every following `put` and
`contains` completes without failure. -/
theorem totality_amended {α : Type} (hashers : ℕ → α → ℕ) (fpr : ℝ)
    (count : ℕ) (vs : List α) (v : α)
    (h0 : 0 < fpr) (h1 : fpr < 1) (hc : 1 ≤ count) :
    ((putAll (new hashers fpr count) vs).bind (fun f₁ => put f₁ v)).isSome
        = true ∧
      ((putAll (new hashers fpr count) vs).bind
        (fun f₁ => contains f₁ v)).isSome = true := by
  obtain ⟨f₁, hput, hgood⟩ := putAll_isSome vs (new_nonAborting hashers fpr hc)
  rw [hput]
  constructor
  · show (put f₁ v).isSome = true
    exact put_isSome_of_nonAborting v hgood
  · show (contains f₁ v).isSome = true
    exact contains_isSome_of_nonAborting v hgood

/-- Witness for the amended C5. -/
theorem totality_amended_witness :
    ((putAll (new (fun _ _ => 0) ((1:ℝ)/10) 1 : BloomFilter ℕ) [5]).bind
        (fun f₁ => put f₁ 7)).isSome = true ∧
      ((putAll (new (fun _ _ => 0) ((1:ℝ)/10) 1 : BloomFilter ℕ) [5]).bind
        (fun f₁ => contains f₁ 7)).isSome = true :=
  totality_amended (fun _ _ => 0) ((1:ℝ)/10) 1 [5] 7 (by norm_num)
    (by norm_num) (le_refl 1)

/-- Claim C9 (counterexample): a freshly constructed filter with
`false_positive_rate = 3/4` has no hash states, and `contains` returns
`true` on it although nothing was inserted. -/
theorem empty_filter_cex :
    contains (new (fun _ _ => 0) ((3:ℝ)/4) 100 : BloomFilter ℕ) 0 = some true := by
  have hs : (new (fun _ _ => 0) ((3:ℝ)/4) 100 : BloomFilter ℕ).states = [] := by
    show (List.range (get_hash_count ((3:ℝ)/4))).map _ = []
    rw [hash_count_of_half_lt (by norm_num) (by norm_num)]
    rfl
  rw [contains, hs]
  rfl

/-- Claim C9 (amended): for `false_positive_rate ∈ (0, 1/2]` and
`expected_item_count ≥ 1`, a freshly constructed filter answers `false` to
every `contains` query. -/
theorem empty_filter_amended {α : Type} (hashers : ℕ → α → ℕ) (fpr : ℝ)
    (count : ℕ) (v : α) (h0 : 0 < fpr) (hhalf : fpr ≤ 1/2) (hc : 1 ≤ count) :
    contains (new hashers fpr count) v = some false := by
  have hn := one_le_hash_count h0 hhalf
  have hnb : get_bit_count (get_hash_count fpr) count ≠ 0 :=
    Nat.one_le_iff_ne_zero.mp (one_le_bit_count hn hc)
  have hgb := get_bits_of_ne_zero
    ((List.range (get_hash_count fpr)).map hashers) v hnb
  show (get_bits ((List.range (get_hash_count fpr)).map hashers) v
      (get_bit_count (get_hash_count fpr) count)).map
      (fun bits => bits.all (fun b => decide (b ∈ (∅ : Finset ℕ)))) = some false
  rw [hgb]
  have hne : (((List.range (get_hash_count fpr)).map hashers).map
      (fun st => st v % 2 ^ 64 % get_bit_count (get_hash_count fpr) count))
      ≠ [] := by
    simp only [ne_eq, List.map_eq_nil_iff, List.range_eq_nil]
    omega
  rcases List.exists_cons_of_ne_nil hne with ⟨b, bs, hcons⟩
  rw [hcons]
  simp

/-- Witness for the amended C9. -/
theorem empty_filter_amended_witness :
    contains (new (fun _ _ => 0) ((1:ℝ)/2) 1 : BloomFilter ℕ) 0 = some false :=
  empty_filter_amended (fun _ _ => 0) ((1:ℝ)/2) 1 0 (by norm_num)
    (by norm_num) (le_refl 1)

/-- Claim C10: degenerate rates.  For every `false_positive_rate` strictly
between `1/2` and `1` the constructed filter has hash count `0` and bit
count `0`; `put` is then a completed no-op and `contains` answers `true`
for every value, although nothing was inserted. -/
theorem degenerate_rate {α : Type} (hashers : ℕ → α → ℕ) (fpr : ℝ)
    (count : ℕ) (v : α) (h1 : 1/2 < fpr) (h2 : fpr < 1) :
    (new hashers fpr count).n_hashes = 0 ∧ (new hashers fpr count).n_bits = 0 ∧
      put (new hashers fpr count) v = some (new hashers fpr count) ∧
      contains (new hashers fpr count) v = some true := by
  have h0 := hash_count_of_half_lt h1 h2
  have hs : (new hashers fpr count).states = [] := by
    show (List.range (get_hash_count fpr)).map hashers = []
    rw [h0]
    rfl
  refine ⟨h0, ?_, ?_, ?_⟩
  · show get_bit_count (get_hash_count fpr) count = 0
    rw [h0]
    exact bit_count_zero count
  · rw [put, hs]
    exact congrArg some (BloomFilter.ext rfl rfl rfl hs.symm)
  · rw [contains, hs]
    rfl

/-- Witness for C10, at rate `3/4` and item count 100. -/
theorem degenerate_rate_witness :
    (new (fun _ _ => 0) ((3:ℝ)/4) 100 : BloomFilter ℕ).n_hashes = 0 ∧
      (new (fun _ _ => 0) ((3:ℝ)/4) 100 : BloomFilter ℕ).n_bits = 0 ∧
      put (new (fun _ _ => 0) ((3:ℝ)/4) 100 : BloomFilter ℕ) 9
          = some (new (fun _ _ => 0) ((3:ℝ)/4) 100 : BloomFilter ℕ) ∧
      contains (new (fun _ _ => 0) ((3:ℝ)/4) 100 : BloomFilter ℕ) 9 = some true :=
  degenerate_rate (fun _ _ => 0) ((3:ℝ)/4) 100 9 (by norm_num) (by norm_num)

end Filters
